import Mathlib

/-!
Shallow embedding of the `matrix` crate (src/lib.rs): a dense matrix of
real-valued entries (modelled as rationals) with a tagged `Dimensions`
shape, a flat row-major buffer, constructors, element access, structural
predicates, arithmetic operators and the recursive cofactor determinant.

Rust panics (failed `unwrap`, `assert!`, index out of bounds, integer
underflow, zero-sized `chunks_exact` / `step_by`) are made explicit with
the `PRes` result type: `PRes.panic` marks an abort, `PRes.ok` a normal
return.  `f64` values are embedded as `ℚ`; machine integers (`usize`) as
`Nat`.
-/

namespace MatrixLib

/-- Result of a Rust computation that can abort the process (panic). -/
inductive PRes (α : Type) where
  | panic : PRes α
  | ok : α → PRes α
deriving DecidableEq

def PRes.map {α β : Type} (f : α → β) : PRes α → PRes β
  | .panic => .panic
  | .ok a => .ok (f a)

def PRes.bind {α β : Type} : PRes α → (α → PRes β) → PRes β
  | .panic, _ => .panic
  | .ok a, f => f a

/-- Rust `Option::unwrap`: panics on `None`. -/
def unwrapO {α : Type} : Option α → PRes α
  | none => .panic
  | some a => .ok a

/-- Collect an iterator of fallible element computations, propagating a panic
(used for `map(...).collect()` / `map(...).sum()` pipelines whose closure can
panic). -/
def PRes.mapList {α β : Type} (f : α → PRes β) : List α → PRes (List β)
  | [] => .ok []
  | x :: xs =>
    match f x with
    | .panic => .panic
    | .ok y => (PRes.mapList f xs).map (fun ys => y :: ys)

/-- Sequential fold whose step can panic (used for the `for` loop in
`Matrix::diagonal`). -/
def PRes.foldList {α β : Type} (f : β → α → PRes β) (init : β) : List α → PRes β
  | [] => .ok init
  | x :: xs =>
    match f init x with
    | .panic => .panic
    | .ok b => PRes.foldList f b xs

/-- `enum Dimensions { Square(usize), Rectangle { rows, columns } }`. -/
inductive Dimensions where
  | Square : Nat → Dimensions
  | Rectangle : (rows : Nat) → (columns : Nat) → Dimensions
deriving DecidableEq

def Dimensions.rows : Dimensions → Nat
  | .Rectangle r _ => r
  | .Square len => len

def Dimensions.columns : Dimensions → Nat
  | .Rectangle _ c => c
  | .Square len => len

def Dimensions.count (d : Dimensions) : Nat := d.rows * d.columns

def Dimensions.transposed : Dimensions → Dimensions
  | .Rectangle r c => .Rectangle c r
  | .Square len => .Square len

/-- `impl From<(usize, usize)> for Dimensions`: collapses to `Square` when
`rows == columns`. -/
def Dimensions.ofPair (rows columns : Nat) : Dimensions :=
  if rows = columns then .Square rows else .Rectangle rows columns

/-- `impl PartialEq for Dimensions` (hand-written in the source): structural,
a `Square` never compares equal to a `Rectangle`. -/
def dimEq : Dimensions → Dimensions → Bool
  | .Square a, .Square b => a == b
  | .Rectangle r1 c1, .Rectangle r2 c2 => r1 == r2 && c1 == c2
  | _, _ => false

inductive ErrorKind where
  | DimensionsIncorrct : String → ErrorKind
  | DividedByZero : ErrorKind
deriving DecidableEq

/-- `struct Matrix { buffer: Vec<f64>, pub dimensions: Dimensions }`. -/
structure Matrix where
  buffer : List ℚ
  dimensions : Dimensions
deriving DecidableEq

/-- The documented invariant: `buffer.length == dimensions.count()`. -/
def Matrix.invariant (m : Matrix) : Prop :=
  m.buffer.length = m.dimensions.count

instance (m : Matrix) : Decidable m.invariant := by
  unfold Matrix.invariant; infer_instance

/-- `impl PartialEq for Matrix`: equal buffers and `is_same_size`. -/
def matEq (a b : Matrix) : Bool :=
  decide (a.buffer = b.buffer) && dimEq a.dimensions b.dimensions

def Matrix.is_same_size (a b : Matrix) : Bool := dimEq a.dimensions b.dimensions

def Matrix.constant (dimensions : Dimensions) (value : ℚ) : Matrix :=
  { buffer := List.replicate dimensions.count value, dimensions := dimensions }

def Matrix.zero (dimensions : Dimensions) : Matrix := Matrix.constant dimensions 0

def Matrix.get (m : Matrix) (i j : Nat) : Option ℚ :=
  if i ≥ m.dimensions.rows ∨ j ≥ m.dimensions.columns then none
  else m.buffer.get? (i * m.dimensions.columns + j)

/-- `Matrix::set`: bounds-checked write.  After the bounds check the code does
`buffer.get_mut(index).unwrap()`, which panics when the buffer is shorter than
the dimensions promise. -/
def Matrix.set (m : Matrix) (i j : Nat) (value : ℚ) : PRes (Matrix × Bool) :=
  if i ≥ m.dimensions.rows ∨ j ≥ m.dimensions.columns then .ok (m, false)
  else
    if i * m.dimensions.columns + j < m.buffer.length then
      .ok ({ buffer := m.buffer.set (i * m.dimensions.columns + j) value,
             dimensions := m.dimensions }, true)
    else .panic

/-- `Matrix::diagonal`: zero square matrix of side `len(values)`, then a
sequential `set(k, k, values[k])` loop (the returned flag is discarded). -/
def Matrix.diagonal (main_diagonal : List ℚ) : PRes Matrix :=
  PRes.foldList (fun acc p => (acc.set p.1 p.1 p.2).map Prod.fst)
    (Matrix.zero (.Square main_diagonal.length)) main_diagonal.enum

def Matrix.scalar (value : ℚ) (size : Nat) : PRes Matrix :=
  Matrix.diagonal (List.replicate size value)

def Matrix.identity (size : Nat) : PRes Matrix :=
  Matrix.diagonal (List.replicate size 1)

/-- `slice::chunks_exact`, with a structural termination counter (`fuel`,
always instantiated with the list length); yields only full chunks and drops
any remainder. -/
def chunksGo (n : Nat) : Nat → List ℚ → List (List ℚ)
  | 0, _ => []
  | fuel + 1, l =>
    if 0 < n ∧ n ≤ l.length then l.take n :: chunksGo n fuel (l.drop n) else []

def chunksExact (n : Nat) (l : List ℚ) : List (List ℚ) := chunksGo n l.length l

/-- `Matrix::rows`: `buffer.chunks_exact(columns)`; `chunks_exact` panics when
the chunk size (the column count) is zero. -/
def Matrix.rows (m : Matrix) : PRes (List (List ℚ)) :=
  if m.dimensions.columns = 0 then .panic
  else .ok (chunksExact m.dimensions.columns m.buffer)

/-- `Iterator::step_by` starting at the current element: `stepByAux c l k`
yields the elements of `l` whose position is `≡ 0 (mod c)` after skipping
`k` more elements first. -/
def stepByAux (c : Nat) : List ℚ → Nat → List ℚ
  | [], _ => []
  | x :: xs, 0 => x :: stepByAux c xs (c - 1)
  | _ :: xs, k + 1 => stepByAux c xs k

def stepBy (c : Nat) (l : List ℚ) : List ℚ := stepByAux c l 0

/-- `Matrix::columns`: for each column index, `skip(j).step_by(columns)` over
the buffer. -/
def Matrix.columns (m : Matrix) : List (List ℚ) :=
  (List.range m.dimensions.columns).map
    (fun j => stepBy m.dimensions.columns (m.buffer.drop j))

def Matrix.row (m : Matrix) (n : Nat) : PRes (Option (List ℚ)) :=
  if n ≥ m.dimensions.rows then .ok none
  else (m.rows).map (fun rs => rs.get? n)

def Matrix.column (m : Matrix) (n : Nat) : Option (List ℚ) :=
  if n ≥ m.dimensions.columns then none
  else (m.columns).get? n

def Matrix.is_square (m : Matrix) : Bool :=
  match m.dimensions with
  | .Square _ => true
  | _ => false

/-- `Matrix::main_diagonal`: `None` for non-square, otherwise collects
`get(k, k).unwrap()`. -/
def Matrix.main_diagonal (m : Matrix) : PRes (Option (List ℚ)) :=
  if m.is_square = false then .ok none
  else (PRes.mapList (fun i => unwrapO (m.get i i))
    (List.range m.dimensions.rows)).map some

/-- `Matrix::secondary_diagonal`: for a square matrix collects
`get(k, last - k).unwrap()` for `k` in `0..=last` where
`last = rows() - 1`; for a 0-sized square the `usize` subtraction
underflows and aborts. -/
def Matrix.secondary_diagonal (m : Matrix) : PRes (Option (List ℚ)) :=
  if m.is_square = false then .ok none
  else if m.dimensions.rows = 0 then .panic
  else
    (PRes.mapList
      (fun i => unwrapO (m.get i (m.dimensions.rows - 1 - i)))
      (List.range (m.dimensions.rows - 1 + 1))).map some

def Matrix.is_column (m : Matrix) : Bool := m.dimensions.columns == 1

def Matrix.is_row (m : Matrix) : Bool := m.dimensions.rows == 1

def Matrix.is_diagonal (m : Matrix) : Bool :=
  if m.is_square = false then false
  else
    m.buffer.enum.all
      (fun p => decide (p.1 % (m.dimensions.columns + 1) = 0) || p.2 == 0)

/-- `itertools` `all_equal_value`: first element when all elements are equal
and the iterator is non-empty, otherwise the error case (mapped to `none`). -/
def allEqualValue (l : List ℚ) : Option ℚ :=
  match l with
  | [] => none
  | x :: xs => if xs.all (fun y => y == x) then some x else none

/-- `Matrix::is_scalar`: `false` unless diagonal; then requires every
main-diagonal entry equal AND the common value to be exactly `1.0`. -/
def Matrix.is_scalar (m : Matrix) : PRes Bool :=
  if m.is_diagonal = false then .ok false
  else
    match m.main_diagonal with
    | .panic => .panic
    | .ok none => .panic
    | .ok (some diag) =>
      .ok (match allEqualValue diag with
        | some v => v == 1
        | none => false)

/-- `Matrix::is_upper_triangular`: over the reversed row list, row at reversed
position `i` contributes its elements after `skip(size - i)`; all of them must
be `0.0`. -/
def Matrix.is_upper_triangular (m : Matrix) : PRes Bool :=
  if m.is_square = false then .ok false
  else
    (m.rows).map (fun rs =>
      rs.reverse.enum.all
        (fun p => (p.2.drop (m.dimensions.rows - p.1)).all (fun x => x == 0)))

/-- `Matrix::is_lower_triangular`: row `i` contributes its elements after
`skip(i + 1)`; all of them must be `0.0`. -/
def Matrix.is_lower_triangular (m : Matrix) : PRes Bool :=
  if m.is_square = false then .ok false
  else
    (m.rows).map (fun rs =>
      rs.enum.all (fun p => (p.2.drop (p.1 + 1)).all (fun x => x == 0)))

/-- `Matrix::from_buffer`: the only length-validating constructor. -/
def Matrix.from_buffer (buffer : List ℚ) (dimensions : Dimensions) :
    Except ErrorKind Matrix :=
  if buffer.length ≠ dimensions.count then
    .error (.DimensionsIncorrct "Dimensions don\x27t match the input size.")
  else .ok { buffer := buffer, dimensions := dimensions }

/-- `Matrix::transpose` / `Matrix::transposed`:
`from_buffer(columns().concat(), dimensions.transposed()).unwrap()`. -/
def Matrix.transposed (m : Matrix) : PRes Matrix :=
  match Matrix.from_buffer (m.columns).flatten m.dimensions.transposed with
  | .ok r => .ok r
  | .error _ => .panic

/-- `itertools` `all_equal` (on the row lengths in `TryFrom`); `true` on an
empty iterator. -/
def allEqualB (l : List Nat) : Bool :=
  match l with
  | [] => true
  | x :: xs => xs.all (fun y => y == x)

/-- `impl TryFrom<Vec<Vec<f64>>> for Matrix`: checks equal row lengths, then
reads `collection[0].len()` — an index-out-of-bounds abort when the input has
no rows. -/
def Matrix.tryFrom (collection : List (List ℚ)) : PRes (Except ErrorKind Matrix) :=
  if allEqualB (collection.map List.length) = false then
    .ok (.error (.DimensionsIncorrct "Row sizes should be equal."))
  else
    match collection with
    | [] => .panic
    | r0 :: _ =>
      .ok (.ok { buffer := collection.flatten,
                 dimensions := Dimensions.ofPair collection.length r0.length })

/-- `impl Mul<f64> for Matrix` (and the symmetric `f64 * Matrix`). -/
def Matrix.mulScalar (m : Matrix) (rhs : ℚ) : Matrix :=
  { buffer := m.buffer.map (fun item => item * rhs), dimensions := m.dimensions }

/-- `impl Div<f64> for Matrix`: elementwise division, no zero check. -/
def Matrix.divScalar (m : Matrix) (rhs : ℚ) : Matrix :=
  { buffer := m.buffer.map (fun item => item / rhs), dimensions := m.dimensions }

/-- `impl Neg for Matrix`: `self * -1.0`. -/
def Matrix.neg (m : Matrix) : Matrix := m.mulScalar (-1)

/-- `impl Add for Matrix`: `assert!(is_same_size)` — aborts on mismatched
shapes — then elementwise zip. -/
def Matrix.add (a b : Matrix) : PRes Matrix :=
  if a.is_same_size b = false then .panic
  else
    .ok { buffer := List.zipWith (fun x y => x + y) a.buffer b.buffer,
          dimensions := a.dimensions }

/-- `impl Sub for Matrix`: `self + (-other)`. -/
def Matrix.sub (a b : Matrix) : PRes Matrix := a.add b.neg

def dot_product (first second : List ℚ) : ℚ :=
  ((first.zip second).map (fun p => p.1 * p.2)).sum

/-- `impl Mul for Matrix`: `None` when inner dimensions disagree, otherwise
the row-major table of `dot_product(row(i).unwrap(), column(j).unwrap())`. -/
def Matrix.mul (a b : Matrix) : PRes (Option Matrix) :=
  if a.dimensions.columns ≠ b.dimensions.rows then .ok none
  else
    (PRes.mapList
      (fun i => PRes.mapList
        (fun j =>
          ((a.row i).bind unwrapO).bind (fun rr =>
            (unwrapO (b.column j)).bind (fun cc => .ok (dot_product rr cc))))
        (List.range b.dimensions.columns))
      (List.range a.dimensions.rows)).map
      (fun rows2 => some { buffer := rows2.flatten,
                           dimensions := Dimensions.ofPair a.dimensions.rows
                             b.dimensions.columns })

mutual

/-- `Matrix::determinant_unoptimized`: `None` for a non-square dimensions tag;
0 for side 0, the sole entry for side 1, main-diagonal product minus
secondary-diagonal product for side 2, and cofactor expansion along row 0
otherwise (delegated to `detTerms`). -/
def Matrix.determinant_unoptimized (m : Matrix) : PRes (Option ℚ) :=
  if m.is_square = false then .ok none
  else
    match hn : m.dimensions.rows with
    | 0 => .ok (some 0)
    | 1 =>
      match m.get 0 0 with
      | none => .panic
      | some v => .ok (some v)
    | 2 =>
      match m.main_diagonal with
      | .panic => .panic
      | .ok none => .panic
      | .ok (some md) =>
        match m.secondary_diagonal with
        | .panic => .panic
        | .ok none => .panic
        | .ok (some sd) =>
          .ok (some (md.foldl (fun value item => value * item) 1 -
            sd.foldl (fun value item => value * item) 1))
    | s + 3 =>
      match m.row 0 with
      | .panic => .panic
      | .ok none => .panic
      | .ok (some r1) =>
        match detTerms s m.buffer r1.enum with
        | .panic => .panic
        | .ok terms => .ok (some terms.sum)
termination_by (m.dimensions.rows + 1, 0)
decreasing_by simp_wf; omega

/-- The general match arm of the determinant, for a matrix of side `s + 3`
(the arm is only reached for sizes `>= 3`): for each `(index, value)` of the
enumerated first row it builds the minor buffer by skipping the first row and
filtering out column `index`, rebuilds a matrix of side `s + 2` through the
`from_buffer` length check (its `unwrap` panics when the check fails, which is
inlined here), and recursively takes `determinant_unoptimized(..).unwrap()`. -/
def detTerms (s : Nat) (buf : List ℚ) (items : List (Nat × ℚ)) : PRes (List ℚ) :=
  match items with
  | [] => .ok []
  | (index, value) :: rest =>
    let minorbuf :=
      ((buf.enum.drop (s + 3)).filter
        (fun p => decide (¬ p.1 % (s + 3) = index))).map Prod.snd
    if minorbuf.length ≠ (s + 2) * (s + 2) then .panic
    else
      match Matrix.determinant_unoptimized
          { buffer := minorbuf, dimensions := .Square (s + 2) } with
      | .panic => .panic
      | .ok none => .panic
      | .ok (some d) =>
        match detTerms s buf rest with
        | .panic => .panic
        | .ok rest2 =>
          .ok ((value * d * (if index % 2 = 0 then 1 else -1)) :: rest2)
termination_by (s + 3, items.length + 1)

end

/-- Reference determinant, written from the claim text: 0 for side 0, the
sole entry for side 1, `a*d - b*c` for side 2, and for side `n > 2` the sum
over column indices `k` of `entry(0,k) * det(minor) * sign`, the minor
deleting row 0 and column `k`. -/
def cofactorSpec : Nat → List (List ℚ) → ℚ
  | 0, _ => 0
  | 1, rows => (rows.getD 0 []).getD 0 0
  | 2, rows =>
    (rows.getD 0 []).getD 0 0 * (rows.getD 1 []).getD 1 0 -
      (rows.getD 0 []).getD 1 0 * (rows.getD 1 []).getD 0 0
  | n + 3, rows =>
    ((List.range (n + 3)).map (fun k =>
      (rows.getD 0 []).getD k 0 *
        cofactorSpec (n + 2) ((rows.drop 1).map (fun row => row.eraseIdx k)) *
        (if k % 2 = 0 then 1 else -1))).sum

/-! ## Basic lemmas -/

theorem dimEq_refl (d : Dimensions) : dimEq d d = true := by
  cases d <;> simp [dimEq]

theorem dimEq_eq {a b : Dimensions} (h : dimEq a b = true) : a = b := by
  cases a <;> cases b <;> simp_all [dimEq]

theorem ofPair_rows (a b : Nat) : (Dimensions.ofPair a b).rows = a := by
  unfold Dimensions.ofPair
  split <;> simp [Dimensions.rows]

theorem ofPair_columns (a b : Nat) : (Dimensions.ofPair a b).columns = b := by
  unfold Dimensions.ofPair
  split <;> simp_all [Dimensions.columns]

theorem ofPair_count (a b : Nat) : (Dimensions.ofPair a b).count = a * b := by
  unfold Dimensions.count
  rw [ofPair_rows, ofPair_columns]

theorem count_transposed (d : Dimensions) : d.transposed.count = d.count := by
  cases d <;> simp [Dimensions.transposed, Dimensions.count, Dimensions.rows,
    Dimensions.columns, Nat.mul_comm]

theorem is_square_iff (m : Matrix) : m.is_square = true ↔ ∃ n, m.dimensions = .Square n := by
  unfold Matrix.is_square
  cases h : m.dimensions <;> simp

/-! ## PRes lemmas -/

theorem PRes.mapList_ok {α β : Type} (f : α → PRes β) (g : α → β) :
    ∀ l : List α, (∀ x ∈ l, f x = .ok (g x)) →
      PRes.mapList f l = .ok (l.map g) := by
  intro l
  induction l with
  | nil => intro _; rfl
  | cons x xs ih =>
    intro h
    have hx : f x = .ok (g x) := h x (by simp)
    have hxs := ih (fun y hy => h y (by simp [hy]))
    simp [PRes.mapList, hx, hxs, PRes.map]

theorem PRes.mapList_ok_inv {α β : Type} (f : α → PRes β) :
    ∀ (l : List α) (ys : List β), PRes.mapList f l = .ok ys →
      ys.length = l.length ∧ ∀ y ∈ ys, ∃ x ∈ l, f x = .ok y := by
  intro l
  induction l with
  | nil =>
    intro ys h
    simp [PRes.mapList] at h
    subst h
    simp
  | cons x xs ih =>
    intro ys h
    simp only [PRes.mapList] at h
    cases hfx : f x with
    | panic => rw [hfx] at h; exact absurd h (by simp)
    | ok y =>
      rw [hfx] at h
      cases hrec : PRes.mapList f xs with
      | panic => rw [hrec] at h; exact absurd h (by simp [PRes.map])
      | ok zs =>
        rw [hrec] at h
        simp [PRes.map] at h
        obtain ⟨hlen, hmem⟩ := ih zs hrec
        subst h
        constructor
        · simp [hlen]
        · intro y2 hy2
          rcases List.mem_cons.mp hy2 with h1 | h2
          · exact ⟨x, by simp, by rw [h1]; exact hfx⟩
          · obtain ⟨x2, hx2, hfz⟩ := hmem y2 h2
            exact ⟨x2, by simp [hx2], hfz⟩

theorem PRes.foldList_preserve {α β : Type} (f : β → α → PRes β) (P : β → Prop)
    (hstep : ∀ b x b2, P b → f b x = .ok b2 → P b2) :
    ∀ (l : List α) (init res : β), P init →
      PRes.foldList f init l = .ok res → P res := by
  intro l
  induction l with
  | nil =>
    intro init res hP h
    simp [PRes.foldList] at h
    rwa [← h]
  | cons x xs ih =>
    intro init res hP h
    simp only [PRes.foldList] at h
    cases hfx : f init x with
    | panic => rw [hfx] at h; exact absurd h (by simp)
    | ok b2 =>
      rw [hfx] at h
      exact ih b2 res (hstep init x b2 hP hfx) h

/-! ## Claim C4 — Dimensions equality -/

/-- Claim C4 counterexample: the claim says `Square(1)` compares equal to
`Rectangle { rows: 1, columns: 1 }`, but the hand-written `PartialEq` is
structural and returns `false` for every cross-variant pair. -/
theorem claim_C4_cex :
    dimEq (Dimensions.Square 1) (Dimensions.Rectangle 1 1) = false := by
  rfl

/-- Claim C4 (amended): Dimensions equality is structural, not semantic — for
every positive `n`, `Square(n)` compares UNEQUAL to
`Rectangle { rows: n, columns: n }`. -/
theorem claim_C4 (n : Nat) (h : 0 < n) :
    dimEq (Dimensions.Square n) (Dimensions.Rectangle n n) = false := by
  rfl

theorem claim_C4_witness :
    0 < 1 ∧ dimEq (Dimensions.Square 1) (Dimensions.Rectangle 1 1) = false :=
  ⟨by decide, claim_C4 1 (by decide)⟩

/-! ## Claim C5 — addition on mismatched shapes -/

/-- Claim C5 counterexample: adding a 1x1 matrix to a 2x2 matrix does not
produce a typed dimension-mismatch error — the `assert!` in `impl Add` aborts
the process (a panic), falsifying the claim that addition "never panics". -/
theorem claim_C5_cex :
    Matrix.add (Matrix.constant (Dimensions.Square 1) 1)
        (Matrix.constant (Dimensions.Square 2) 1) = .panic ∧
      dimEq (Dimensions.Square 1) (Dimensions.Square 2) = false := by
  constructor <;> rfl

/-- Claim C5 (amended): for every pair of matrices whose shapes are not equal
(per Dimensions equality), addition panics via an assertion (process abort)
rather than returning a typed dimension-mismatch error; it never returns a
successful sum for mismatched shapes. -/
theorem claim_C5 (a b : Matrix) (h : dimEq a.dimensions b.dimensions = false) :
    Matrix.add a b = .panic := by
  simp [Matrix.add, Matrix.is_same_size, h]

theorem claim_C5_witness :
    dimEq (Matrix.constant (Dimensions.Square 1) 1).dimensions
        (Matrix.constant (Dimensions.Square 2) 1).dimensions = false ∧
      Matrix.add (Matrix.constant (Dimensions.Square 1) 1)
        (Matrix.constant (Dimensions.Square 2) 1) = .panic :=
  ⟨by decide,
    claim_C5 (Matrix.constant (Dimensions.Square 1) 1)
      (Matrix.constant (Dimensions.Square 2) 1) (by decide)⟩

/-! ## Claim C3 — triangular predicates -/

/-- Claim C3 is false of the code (a code bug): `is_upper_triangular` tests
the strictly-above-diagonal entries (the lower-triangular condition) instead
of the strictly-below ones.  The matrix `[[1,0],[5,1]]` has the
below-diagonal entry `(1,0) = 5 != 0`, yet `is_upper_triangular` returns
`true`; the genuinely upper-triangular `[[1,7],[0,1]]` gets `false`. -/
theorem claim_C3 :
    Matrix.is_upper_triangular
        { buffer := [1, 0, 5, 1], dimensions := .Square 2 } = .ok true ∧
      Matrix.get { buffer := [1, 0, 5, 1], dimensions := .Square 2 } 1 0 =
        some 5 ∧
      Matrix.is_upper_triangular
        { buffer := [1, 7, 0, 1], dimensions := .Square 2 } = .ok false := by
  refine ⟨by decide, by decide, by decide⟩

/-! ## Claim C6 — is_scalar -/

/-- Claim C6 is false of the code (a code bug): `scalar(2.0, 2)` builds the
diagonal matrix `2 * I` (diagonal, constant main diagonal), but `is_scalar`
additionally demands the common diagonal value be exactly `1.0` and returns
`false`, contradicting both the claim and the function doc ("a scalar
multiple of the identity matrix"). -/
theorem claim_C6 :
    (Matrix.scalar 2 2).bind Matrix.is_scalar = .ok false ∧
      (Matrix.scalar 2 2).map Matrix.is_diagonal = .ok true ∧
      (Matrix.scalar 2 2).bind Matrix.main_diagonal = .ok (some [2, 2]) := by
  refine ⟨by decide, by decide, by decide⟩

/-! ## Claim C7 — scalar division by zero -/

/-- Claim C7 is false of the code (a code bug): `impl Div<f64> for Matrix`
performs no zero check and its output type has no error channel, so dividing
by the zero scalar succeeds and maps every entry through `item / 0.0`
(infinity or NaN on `f64`); the declared `ErrorKind::DividedByZero` is never
produced anywhere in the crate. -/
theorem claim_C7 :
    Matrix.divScalar (Matrix.constant (Dimensions.Square 1) 1) 0 =
      { buffer := [(1 : ℚ) / 0], dimensions := Dimensions.Square 1 } := by
  norm_num [Matrix.divScalar, Matrix.constant, Dimensions.count,
    Dimensions.rows, Dimensions.columns]

/-! ## Claim C8 — TryFrom on zero rows -/

/-- Claim C8 is false of the code (a code bug): converting an empty row list
panics — `all_equal` is vacuously true on no rows, and the subsequent
`collection[0]` indexes out of bounds — instead of reporting the
dimension-mismatch error the claim (and the fallible `TryFrom` design)
requires. -/
theorem claim_C8 : Matrix.tryFrom [] = .panic := by
  rfl

/-! ## Invariant preservation (claim C2) -/

theorem flatten_length_const {c : Nat} :
    ∀ rs : List (List ℚ), (∀ r ∈ rs, r.length = c) →
      rs.flatten.length = rs.length * c := by
  intro rs
  induction rs with
  | nil => intro _; simp
  | cons r rest ih =>
    intro h
    have hr : r.length = c := h r (by simp)
    have hrest := ih (fun x hx => h x (by simp [hx]))
    simp [List.flatten, hr, hrest, Nat.succ_mul, Nat.add_comm]

theorem allEqualB_lengths {r0 : List ℚ} {rest : List (List ℚ)}
    (h : allEqualB ((r0 :: rest).map List.length) = true) :
    ∀ r ∈ r0 :: rest, r.length = r0.length := by
  intro r hr
  simp only [List.map_cons, allEqualB, List.all_eq_true] at h
  rcases List.mem_cons.mp hr with h1 | h2
  · rw [h1]
  · have := h r.length (List.mem_map_of_mem List.length h2)
    simpa using this

theorem set_ok_shape {m : Matrix} {i j : Nat} {v : ℚ} {m2 : Matrix} {b : Bool}
    (h : Matrix.set m i j v = .ok (m2, b)) :
    m2.buffer.length = m.buffer.length ∧ m2.dimensions = m.dimensions := by
  unfold Matrix.set at h
  split at h
  · simp at h
    simp [← h.1]
  · split at h
    · simp at h
      simp [← h.1]
    · exact absurd h (by simp)

theorem inv_constant (d : Dimensions) (v : ℚ) : (Matrix.constant d v).invariant := by
  simp [Matrix.constant, Matrix.invariant]

theorem inv_diagonal (vals : List ℚ) (m : Matrix)
    (h : Matrix.diagonal vals = .ok m) : m.invariant := by
  refine PRes.foldList_preserve _ Matrix.invariant ?_ vals.enum _ m ?_ h
  · intro acc x b2 hP hstep
    cases hset : Matrix.set acc x.1 x.1 x.2 with
    | panic => rw [hset] at hstep; exact absurd hstep (by simp [PRes.map])
    | ok pr =>
      obtain ⟨mm, bb⟩ := pr
      rw [hset] at hstep
      simp [PRes.map] at hstep
      obtain ⟨hlen, hdims⟩ := set_ok_shape hset
      unfold Matrix.invariant at hP ⊢
      rw [← hstep, hlen, hdims, hP]
  · exact inv_constant _ _

theorem inv_tryFrom (rows : List (List ℚ)) (m : Matrix)
    (h : Matrix.tryFrom rows = .ok (.ok m)) : m.invariant := by
  unfold Matrix.tryFrom at h
  split at h
  · exact absurd h (by simp)
  · rename_i hall
    cases rows with
    | nil => exact absurd h (by simp)
    | cons r0 rest =>
      simp only at h
      simp at h
      have hv : allEqualB ((r0 :: rest).map List.length) = true := by
        revert hall
        cases allEqualB ((r0 :: rest).map List.length) <;> simp
      have hlens := allEqualB_lengths hv
      have hflat := flatten_length_const (r0 :: rest) hlens
      unfold Matrix.invariant
      rw [← h]
      simp only [ofPair_count]
      exact hflat

theorem inv_from_buffer (buf : List ℚ) (d : Dimensions) (m : Matrix)
    (h : Matrix.from_buffer buf d = .ok m) : m.invariant := by
  unfold Matrix.from_buffer at h
  split at h
  · exact absurd h (by simp)
  · rename_i hlen
    simp at h
    unfold Matrix.invariant
    rw [← h]
    simpa using hlen

theorem inv_set (m : Matrix) (i j : Nat) (v : ℚ) (m2 : Matrix) (b : Bool)
    (hm : m.invariant) (h : Matrix.set m i j v = .ok (m2, b)) : m2.invariant := by
  obtain ⟨hlen, hdims⟩ := set_ok_shape h
  unfold Matrix.invariant at hm ⊢
  rw [hlen, hdims, hm]

theorem inv_transposed (m m2 : Matrix) (h : Matrix.transposed m = .ok m2) :
    m2.invariant := by
  unfold Matrix.transposed at h
  split at h
  · rename_i r hr
    simp at h
    rw [← h]
    exact inv_from_buffer _ _ _ hr
  · exact absurd h (by simp)

theorem inv_mulScalar (m : Matrix) (q : ℚ) (hm : m.invariant) :
    (m.mulScalar q).invariant := by
  simpa [Matrix.invariant, Matrix.mulScalar] using hm

theorem inv_divScalar (m : Matrix) (q : ℚ) (hm : m.invariant) :
    (m.divScalar q).invariant := by
  simpa [Matrix.invariant, Matrix.divScalar] using hm

theorem inv_neg (m : Matrix) (hm : m.invariant) : (Matrix.neg m).invariant :=
  inv_mulScalar m (-1) hm

theorem inv_add (a b : Matrix) (m2 : Matrix) (ha : a.invariant)
    (hb : b.invariant) (h : Matrix.add a b = .ok m2) : m2.invariant := by
  unfold Matrix.add at h
  split at h
  · exact absurd h (by simp)
  · rename_i hsz
    have hEq : dimEq a.dimensions b.dimensions = true := by
      revert hsz
      unfold Matrix.is_same_size
      cases dimEq a.dimensions b.dimensions <;> simp
    have hd : a.dimensions = b.dimensions := dimEq_eq hEq
    simp at h
    unfold Matrix.invariant at ha hb ⊢
    rw [← h]
    simp only [List.length_zipWith]
    rw [ha, hb, hd, Nat.min_self]

theorem inv_sub (a b : Matrix) (m2 : Matrix) (ha : a.invariant)
    (hb : b.invariant) (h : Matrix.sub a b = .ok m2) : m2.invariant :=
  inv_add a b.neg m2 ha (inv_neg b hb) h

theorem mul_row_lengths {f : Nat → PRes (List ℚ)} {idx : List Nat}
    {rows2 : List (List ℚ)} (c : Nat)
    (h : PRes.mapList f idx = .ok rows2)
    (hf : ∀ i y, f i = .ok y → y.length = c) :
    ∀ y ∈ rows2, y.length = c := by
  intro y hy
  obtain ⟨_, hmem⟩ := PRes.mapList_ok_inv f idx rows2 h
  obtain ⟨x, _, hfx⟩ := hmem y hy
  exact hf x y hfx

theorem inv_mul (a b : Matrix) (m2 : Matrix)
    (h : Matrix.mul a b = .ok (some m2)) : m2.invariant := by
  unfold Matrix.mul at h
  split at h
  · exact absurd h (by simp)
  · cases houter : PRes.mapList
        (fun i => PRes.mapList
          (fun j =>
            ((a.row i).bind unwrapO).bind (fun rr =>
              (unwrapO (b.column j)).bind
                (fun cc => .ok (dot_product rr cc))))
          (List.range b.dimensions.columns))
        (List.range a.dimensions.rows) with
    | panic => rw [houter] at h; exact absurd h (by simp [PRes.map])
    | ok rows2 =>
      rw [houter] at h
      simp [PRes.map] at h
      obtain ⟨hlen, _⟩ := PRes.mapList_ok_inv _ _ _ houter
      have hrows : ∀ y ∈ rows2, y.length = b.dimensions.columns := by
        refine mul_row_lengths _ houter ?_
        intro i y hfy
        obtain ⟨hylen, _⟩ := PRes.mapList_ok_inv _ _ _ hfy
        simpa using hylen
      have hflat := flatten_length_const rows2 hrows
      unfold Matrix.invariant
      rw [← h]
      simp only [ofPair_count]
      rw [hflat, hlen]
      simp

/-- Claim C2: every constructor and buffer-rebuilding operation of the public
API establishes (constructors, conversions, matrix multiply) or preserves
(set, transpose, negate, add, subtract, scalar multiply and divide) the
invariant `buffer.length == dimensions.count()` in its successful result. -/
theorem claim_C2 :
    (∀ d v, (Matrix.constant d v).invariant) ∧
    (∀ d, (Matrix.zero d).invariant) ∧
    (∀ vals m, Matrix.diagonal vals = .ok m → m.invariant) ∧
    (∀ v n m, Matrix.scalar v n = .ok m → m.invariant) ∧
    (∀ n m, Matrix.identity n = .ok m → m.invariant) ∧
    (∀ rows m, Matrix.tryFrom rows = .ok (.ok m) → m.invariant) ∧
    (∀ buf d m, Matrix.from_buffer buf d = .ok m → m.invariant) ∧
    (∀ m i j v m2 b, m.invariant → Matrix.set m i j v = .ok (m2, b) →
      m2.invariant) ∧
    (∀ m m2, Matrix.transposed m = .ok m2 → m2.invariant) ∧
    (∀ m, m.invariant → (Matrix.neg m).invariant) ∧
    (∀ a b m2, a.invariant → b.invariant → Matrix.add a b = .ok m2 →
      m2.invariant) ∧
    (∀ a b m2, a.invariant → b.invariant → Matrix.sub a b = .ok m2 →
      m2.invariant) ∧
    (∀ (m : Matrix) (q : ℚ), m.invariant → (m.mulScalar q).invariant) ∧
    (∀ (m : Matrix) (q : ℚ), m.invariant → (m.divScalar q).invariant) ∧
    (∀ a b m2, Matrix.mul a b = .ok (some m2) → m2.invariant) :=
  ⟨inv_constant, fun d => inv_constant d 0,
    inv_diagonal,
    fun v n m h => inv_diagonal (List.replicate n v) m h,
    fun n m h => inv_diagonal (List.replicate n 1) m h,
    inv_tryFrom, inv_from_buffer,
    inv_set, inv_transposed, inv_neg, inv_add, inv_sub,
    inv_mulScalar, inv_divScalar, inv_mul⟩

theorem claim_C2_witness :
    (Matrix.constant (Dimensions.Rectangle 2 3) 1).invariant ∧
    (Matrix.zero (Dimensions.Square 2)).invariant ∧
    ({ buffer := [2, 0, 0, 3], dimensions := .Square 2 } : Matrix).invariant ∧
    ({ buffer := [4, 0, 0, 4], dimensions := .Square 2 } : Matrix).invariant ∧
    ({ buffer := [1, 0, 0, 1], dimensions := .Square 2 } : Matrix).invariant ∧
    ({ buffer := [1, 2, 3, 4], dimensions := .Square 2 } : Matrix).invariant ∧
    ({ buffer := [1, 2], dimensions := .Rectangle 1 2 } : Matrix).invariant ∧
    ({ buffer := [0, 7, 0, 0], dimensions := .Square 2 } : Matrix).invariant ∧
    ({ buffer := [1, 4, 2, 5, 3, 6],
       dimensions := .Rectangle 3 2 } : Matrix).invariant ∧
    (Matrix.neg (Matrix.constant (.Square 1) 5)).invariant ∧
    ({ buffer := [3], dimensions := .Square 1 } : Matrix).invariant ∧
    ({ buffer := [3], dimensions := .Square 1 } : Matrix).invariant ∧
    ((Matrix.constant (.Square 1) 5).mulScalar 2).invariant ∧
    ((Matrix.constant (.Square 1) 5).divScalar 2).invariant ∧
    ({ buffer := [11], dimensions := .Square 1 } : Matrix).invariant := by
  obtain ⟨h1, h2, h3, h4, h5, h6, h7, h8, h9, h10,
    h11, h12, h13, h14, h15⟩ := claim_C2
  refine ⟨h1 _ _, h2 _, h3 [2, 3] _ (by rfl), h4 4 2 _ (by rfl),
    h5 2 _ (by rfl), h6 [[1, 2], [3, 4]] _ (by rfl),
    h7 [1, 2] (.Rectangle 1 2) _ (by rfl),
    h8 (Matrix.constant (.Square 2) 0) 0 1 7 _ true (by decide) (by rfl),
    h9 { buffer := [1, 2, 3, 4, 5, 6], dimensions := .Rectangle 2 3 } _
      (by rfl),
    h10 _ (by decide), ?_, ?_, h13 _ 2 (by decide), h14 _ 2 (by decide), ?_⟩
  · refine h11 (Matrix.constant (.Square 1) 1)
      (Matrix.constant (.Square 1) 2) _ (by decide) (by decide) ?_
    norm_num [Matrix.add, Matrix.is_same_size, dimEq, Matrix.constant,
      Dimensions.count, Dimensions.rows, Dimensions.columns]
  · refine h12 (Matrix.constant (.Square 1) 5)
      (Matrix.constant (.Square 1) 2) _ (by decide) (by decide) ?_
    norm_num [Matrix.sub, Matrix.neg, Matrix.mulScalar, Matrix.add,
      Matrix.is_same_size, dimEq, Matrix.constant, Dimensions.count,
      Dimensions.rows, Dimensions.columns]
  · refine h15 { buffer := [1, 2], dimensions := .Rectangle 1 2 }
      { buffer := [3, 4], dimensions := .Rectangle 2 1 } _ ?_
    norm_num [Matrix.mul, PRes.mapList, PRes.map, PRes.bind, Matrix.row,
      Matrix.rows, chunksExact, chunksGo, Matrix.column, Matrix.columns,
      stepBy, stepByAux, unwrapO, dot_product, Dimensions.ofPair,
      Dimensions.rows, Dimensions.columns, Dimensions.count,
      List.range_succ, List.range_zero]

/-! ## Transposition (claim C9) -/

theorem stepByAux_drop (c : Nat) :
    ∀ (l : List ℚ) (k : Nat), stepByAux c l k = stepByAux c (l.drop k) 0 := by
  intro l
  induction l with
  | nil => intro k; simp [stepByAux]
  | cons x xs ih =>
    intro k
    cases k with
    | zero => simp
    | succ k2 => simpa [stepByAux] using ih k2

theorem stepBy_cons (c : Nat) (x : ℚ) (xs : List ℚ) :
    stepBy c (x :: xs) = x :: stepBy c (xs.drop (c - 1)) := by
  unfold stepBy
  rw [show stepByAux c (x :: xs) 0 = x :: stepByAux c xs (c - 1) from rfl,
    stepByAux_drop]

theorem getD_drop (l : List ℚ) (c m : Nat) :
    (l.drop c).getD m 0 = l.getD (c + m) 0 := by
  simp [List.getD_eq_getElem?_getD, List.getElem?_drop]

theorem stepBy_eq_map (c : Nat) (hc : 0 < c) :
    ∀ (r : Nat) (l : List ℚ) (j : Nat), j < c → l.length = r * c →
      stepBy c (l.drop j) =
        (List.range r).map (fun k => l.getD (k * c + j) 0) := by
  intro r
  induction r with
  | zero =>
    intro l j _ hlen
    have hnil : l = [] := List.eq_nil_of_length_eq_zero (by simpa using hlen)
    subst hnil
    simp [stepBy, stepByAux]
  | succ r2 ih =>
    intro l j hj hlen
    have hc_le : c ≤ l.length := by rw [hlen, Nat.succ_mul]; omega
    have hlen1 : (l.take c).length = c := by
      rw [List.length_take]
      omega
    have hlen2 : (l.drop c).length = r2 * c := by
      rw [List.length_drop, hlen, Nat.succ_mul]
      omega
    have hjlt : j < (l.take c).length := by omega
    have hdropj : l.drop j = (l.take c).drop j ++ l.drop c := by
      conv_lhs => rw [← List.take_append_drop c l]
      rw [List.drop_append_eq_append_drop, hlen1, Nat.sub_eq_zero_of_le
        (Nat.le_of_lt hj), List.drop_zero]
    have hhead : (l.take c).drop j = l.getD j 0 :: (l.take c).drop (j + 1) := by
      rw [List.drop_eq_getElem_cons hjlt, List.getElem_take,
        List.getD_eq_getElem l 0 (Nat.lt_of_lt_of_le hj hc_le)]
    have hlen3 : ((l.take c).drop (j + 1)).length = c - (j + 1) := by
      rw [List.length_drop, hlen1]
    have htail : ((l.take c).drop (j + 1) ++ l.drop c).drop (c - 1) =
        (l.drop c).drop j := by
      rw [List.drop_append_eq_append_drop]
      rw [List.drop_eq_nil_of_le (by omega), hlen3]
      rw [show c - 1 - (c - (j + 1)) = j by omega]
      simp
    rw [hdropj, hhead, List.cons_append, stepBy_cons, htail,
      ih (l.drop c) j hj hlen2, List.range_succ_eq_map, List.map_cons,
      List.map_map]
    congr 1
    · simp
    · refine List.map_congr_left ?_
      intro k _
      simp only [Function.comp]
      rw [getD_drop]
      congr 1
      rw [Nat.succ_mul]
      omega

theorem getD_flatten_table :
    ∀ (M : Nat) (N : Nat) (f : Nat → Nat → ℚ) (a b : Nat), a < M → b < N →
      (List.flatten ((List.range M).map
        (fun i => (List.range N).map (fun j => f i j)))).getD (a * N + b) 0 =
        f a b := by
  intro M
  induction M with
  | zero => intro N f a b ha _; omega
  | succ M2 ih =>
    intro N f a b ha hb
    rw [List.range_succ_eq_map]
    simp only [List.map_cons, List.map_map, List.flatten_cons]
    have hlen0 : ((List.range N).map (fun j => f 0 j)).length = N := by simp
    cases a with
    | zero =>
      rw [Nat.zero_mul, Nat.zero_add,
        List.getD_append _ _ _ _ (by rw [hlen0]; exact hb)]
      rw [List.getD_eq_getElem _ _ (by simpa using hb)]
      simp [hb]
    | succ a2 =>
      rw [show Nat.succ a2 * N + b = N + (a2 * N + b) by rw [Nat.succ_mul]; omega,
        List.getD_append_right _ _ _ _ (by rw [hlen0]; omega)]
      rw [hlen0, Nat.add_sub_cancel_left]
      have := ih N (fun i j => f (i + 1) j) a2 b (by omega) hb
      simpa [Function.comp, Nat.succ_eq_add_one] using this

theorem map_range_getD (l : List ℚ) (c : Nat) (h : c ≤ l.length) :
    (List.range c).map (fun k => l.getD k 0) = l.take c := by
  refine List.ext_getElem (by simp [Nat.min_eq_left h]) ?_
  intro n h1 h2
  have hn : n < c := by simpa using h1
  rw [List.getElem_map, List.getElem_range, List.getElem_take,
    List.getD_eq_getElem _ _ (by omega)]

theorem flatten_table_eq_self :
    ∀ (r : Nat) (c : Nat) (l : List ℚ), l.length = r * c →
      List.flatten ((List.range r).map
        (fun i => (List.range c).map (fun k => l.getD (i * c + k) 0))) = l := by
  intro r
  induction r with
  | zero =>
    intro c l hlen
    have hnil : l = [] := List.eq_nil_of_length_eq_zero (by simpa using hlen)
    subst hnil
    simp
  | succ r2 ih =>
    intro c l hlen
    have hc_le : c ≤ l.length := by rw [hlen, Nat.succ_mul]; omega
    rw [List.range_succ_eq_map]
    simp only [List.map_cons, List.map_map, List.flatten_cons, Nat.zero_mul,
      Nat.zero_add]
    have h0 : (List.range c).map (fun k => l.getD k 0) = l.take c :=
      map_range_getD l c hc_le
    have hrest : List.flatten ((List.range r2).map
        (fun i => (List.range c).map
          (fun k => (l.drop c).getD (i * c + k) 0))) = l.drop c := by
      refine ih c (l.drop c) ?_
      rw [List.length_drop, hlen, Nat.succ_mul]
      omega
    have hmaps : (List.range r2).map ((fun i => (List.range c).map
          (fun k => l.getD (i * c + k) 0)) ∘ Nat.succ) =
        (List.range r2).map (fun i => (List.range c).map
          (fun k => (l.drop c).getD (i * c + k) 0)) := by
      refine List.map_congr_left ?_
      intro i _
      simp only [Function.comp]
      refine List.map_congr_left ?_
      intro k _
      rw [getD_drop]
      congr 1
      rw [Nat.succ_mul]
      omega
    rw [h0, hmaps, hrest, List.take_append_drop]

theorem transposed_rows (d : Dimensions) : d.transposed.rows = d.columns := by
  cases d <;> rfl

theorem transposed_columns (d : Dimensions) : d.transposed.columns = d.rows := by
  cases d <;> rfl

theorem transposed_transposed (d : Dimensions) : d.transposed.transposed = d := by
  cases d <;> rfl

/-- The `columns()` decomposition in table form: column `j` is the stride-`c`
walk, i.e. the entries `l[k * c + j]`. -/
theorem columns_flatten (l : List ℚ) (r c : Nat) (hlen : l.length = r * c) :
    ((List.range c).map (fun j => stepBy c (l.drop j))).flatten =
      List.flatten ((List.range c).map
        (fun j => (List.range r).map (fun k => l.getD (k * c + j) 0))) := by
  rcases Nat.eq_zero_or_pos c with hc | hc
  · subst hc; rfl
  · congr 1
    refine List.map_congr_left ?_
    intro j hj
    exact stepBy_eq_map c hc r l j (List.mem_range.mp hj) hlen

theorem double_table (l : List ℚ) (r c : Nat) (hlen : l.length = r * c) :
    List.flatten ((List.range r).map (fun j => (List.range c).map (fun k =>
      (List.flatten ((List.range c).map (fun j2 => (List.range r).map
        (fun k2 => l.getD (k2 * c + j2) 0)))).getD (k * r + j) 0))) = l := by
  refine Eq.trans ?_ (flatten_table_eq_self r c l hlen)
  congr 1
  refine List.map_congr_left ?_
  intro j hj
  refine List.map_congr_left ?_
  intro k hk
  exact getD_flatten_table c r (fun i j2 => l.getD (j2 * c + i) 0) k j
    (List.mem_range.mp hk) (List.mem_range.mp hj)

theorem columns_flatten_len (m : Matrix) (hm : m.invariant) :
    (m.columns).flatten.length =
      m.dimensions.columns * m.dimensions.rows := by
  unfold Matrix.columns
  rw [columns_flatten m.buffer m.dimensions.rows m.dimensions.columns hm]
  rw [flatten_length_const (c := m.dimensions.rows) _ ?_]
  · simp
  · intro rr hrr
    simp only [List.mem_map] at hrr
    obtain ⟨j, _, hjr⟩ := hrr
    rw [← hjr]
    simp

/-- Under the length invariant the `unwrap` inside `transpose` always
succeeds, returning the column concatenation with the transposed shape. -/
theorem transposed_spec (m : Matrix) (hm : m.invariant) :
    Matrix.transposed m =
      .ok { buffer := (m.columns).flatten,
            dimensions := m.dimensions.transposed } := by
  unfold Matrix.transposed Matrix.from_buffer
  rw [if_neg]
  · push_neg
    rw [columns_flatten_len m hm, count_transposed]
    simp [Dimensions.count, Nat.mul_comm]

/-- Claim C9 core: transposing twice gives back the original matrix. -/
theorem transposed_involution (m : Matrix) (h : m.invariant) :
    PRes.map (fun m2 => matEq m2 m)
      (PRes.bind (Matrix.transposed m) Matrix.transposed) = .ok true := by
  have h1 := transposed_spec m h
  have hlen1 : ((m.columns).flatten).length =
      m.dimensions.columns * m.dimensions.rows := columns_flatten_len m h
  set m1 : Matrix := (⟨(m.columns).flatten, m.dimensions.transposed⟩ : Matrix)
    with hm1
  have hm1inv : m1.invariant := by
    unfold Matrix.invariant
    rw [hm1]
    rw [count_transposed]
    simpa [Dimensions.count, Nat.mul_comm] using hlen1
  have h2 := transposed_spec m1 hm1inv
  have hbufm1 : m1.buffer = List.flatten ((List.range m.dimensions.columns).map
      (fun j => (List.range m.dimensions.rows).map
        (fun k => m.buffer.getD (k * m.dimensions.columns + j) 0))) := by
    rw [hm1]
    show (m.columns).flatten = _
    unfold Matrix.columns
    exact columns_flatten m.buffer m.dimensions.rows m.dimensions.columns h
  have hbuf : (m1.columns).flatten = m.buffer := by
    unfold Matrix.columns
    rw [show m1.dimensions.columns = m.dimensions.rows from by
      rw [hm1]; exact transposed_columns m.dimensions]
    rw [columns_flatten m1.buffer m.dimensions.columns m.dimensions.rows
      hlen1]
    rw [hbufm1]
    exact double_table m.buffer m.dimensions.rows m.dimensions.columns h
  rw [h1]
  show PRes.map (fun m2 => matEq m2 m) (Matrix.transposed m1) = .ok true
  rw [h2]
  show PRes.ok (matEq (⟨(m1.columns).flatten,
    m1.dimensions.transposed⟩ : Matrix) m) = .ok true
  have hdims : m1.dimensions.transposed = m.dimensions := by
    rw [hm1]
    exact transposed_transposed m.dimensions
  rw [matEq]
  simp [hbuf, hdims, dimEq_refl]

/-- Claim C9: for every matrix (satisfying the representation invariant every
live matrix has), the non-mutating transpose applied twice returns a matrix
equal to the original under the `PartialEq` of `Matrix` (equal buffers and
equal Dimensions). -/
theorem claim_C9 (m : Matrix) (h : m.invariant) :
    PRes.map (fun m2 => matEq m2 m)
      (PRes.bind (Matrix.transposed m) Matrix.transposed) = .ok true :=
  transposed_involution m h

theorem claim_C9_witness :
    ((⟨[1, 2, 3, 4, 5, 6], .Rectangle 2 3⟩ : Matrix)).invariant ∧
      PRes.map
        (fun m2 => matEq m2 (⟨[1, 2, 3, 4, 5, 6], .Rectangle 2 3⟩ : Matrix))
        (PRes.bind
          (Matrix.transposed (⟨[1, 2, 3, 4, 5, 6], .Rectangle 2 3⟩ : Matrix))
          Matrix.transposed) = .ok true :=
  ⟨by decide,
    claim_C9 (⟨[1, 2, 3, 4, 5, 6], .Rectangle 2 3⟩ : Matrix) (by decide)⟩

/-! ## Chunk, enumeration and minor-extraction lemmas (claims C1, C10) -/

theorem chunksGo_fuel (n : Nat) :
    ∀ (f1 f2 : Nat) (l : List ℚ), l.length ≤ f1 → l.length ≤ f2 →
      chunksGo n f1 l = chunksGo n f2 l := by
  intro f1
  induction f1 with
  | zero =>
    intro f2 l h1 _
    have hnil : l = [] := List.eq_nil_of_length_eq_zero (by omega)
    subst hnil
    cases f2 with
    | zero => rfl
    | succ f3 =>
      show chunksGo n 0 [] = chunksGo n (f3 + 1) []
      unfold chunksGo
      rw [if_neg]
      simp
      omega
  | succ f1b ih =>
    intro f2 l h1 h2
    cases f2 with
    | zero =>
      have hnil : l = [] := List.eq_nil_of_length_eq_zero (by omega)
      subst hnil
      show chunksGo n (f1b + 1) [] = chunksGo n 0 []
      unfold chunksGo
      rw [if_neg]
      simp
      omega
    | succ f2b =>
      show chunksGo n (f1b + 1) l = chunksGo n (f2b + 1) l
      unfold chunksGo
      by_cases hcond : 0 < n ∧ n ≤ l.length
      · rw [if_pos hcond, if_pos hcond]
        congr 1
        refine ih f2b (l.drop n) ?_ ?_ <;>
          · rw [List.length_drop]
            omega
      · rw [if_neg hcond, if_neg hcond]

theorem chunksExact_cons (n : Nat) (l : List ℚ) (hn : 0 < n)
    (hle : n ≤ l.length) :
    chunksExact n l = l.take n :: chunksExact n (l.drop n) := by
  obtain ⟨f, hf⟩ : ∃ f, l.length = f + 1 := ⟨l.length - 1, by omega⟩
  conv_lhs => rw [chunksExact, hf]
  show (if 0 < n ∧ n ≤ l.length then l.take n :: chunksGo n f (l.drop n)
    else []) = _
  rw [if_pos ⟨hn, hle⟩]
  congr 1
  show chunksGo n f (l.drop n) = chunksGo n (l.drop n).length (l.drop n)
  refine chunksGo_fuel n f _ (l.drop n) ?_ ?_ <;>
    simp [List.length_drop] <;> omega

theorem chunksExact_mem_length (n : Nat) (hn : 0 < n) :
    ∀ (r : Nat) (l : List ℚ), l.length = r * n →
      ∀ row ∈ chunksExact n l, row.length = n := by
  intro r
  induction r with
  | zero =>
    intro l hlen row hrow
    have hnil : l = [] := List.eq_nil_of_length_eq_zero (by simpa using hlen)
    subst hnil
    exact absurd hrow (by simp [chunksExact, chunksGo])
  | succ r2 ih =>
    intro l hlen row hrow
    have hle : n ≤ l.length := by rw [hlen, Nat.succ_mul]; omega
    rw [chunksExact_cons n l hn hle] at hrow
    rcases List.mem_cons.mp hrow with h1 | h2
    · rw [h1, List.length_take]
      omega
    · refine ih (l.drop n) ?_ row h2
      rw [List.length_drop, hlen, Nat.succ_mul]
      omega

theorem chunksExact_length (n : Nat) (hn : 0 < n) :
    ∀ (r : Nat) (l : List ℚ), l.length = r * n →
      (chunksExact n l).length = r := by
  intro r
  induction r with
  | zero =>
    intro l hlen
    have hnil : l = [] := List.eq_nil_of_length_eq_zero (by simpa using hlen)
    subst hnil
    rfl
  | succ r2 ih =>
    intro l hlen
    have hle : n ≤ l.length := by rw [hlen, Nat.succ_mul]; omega
    rw [chunksExact_cons n l hn hle, List.length_cons, ih (l.drop n) ?_]
    rw [List.length_drop, hlen, Nat.succ_mul]
    omega

theorem chunksExact_flatten (n : Nat) (hn : 0 < n) :
    ∀ rs : List (List ℚ), (∀ row ∈ rs, row.length = n) →
      chunksExact n rs.flatten = rs := by
  intro rs
  induction rs with
  | nil => intro _; rfl
  | cons row rest ih =>
    intro h
    have hrow : row.length = n := h row (by simp)
    have hle : n ≤ (row :: rest).flatten.length := by
      simp [List.flatten_cons, hrow]
    rw [List.flatten_cons, chunksExact_cons n _ hn (by simpa using hle)]
    rw [show (row ++ rest.flatten).take n = row from by
      rw [← hrow]; exact List.take_left row rest.flatten]
    rw [show (row ++ rest.flatten).drop n = rest.flatten from by
      rw [← hrow]; exact List.drop_left row rest.flatten]
    rw [ih (fun x hx => h x (by simp [hx]))]

theorem enumFrom_drop :
    ∀ (l : List ℚ) (s k : Nat),
      (List.enumFrom s l).drop k = List.enumFrom (s + k) (l.drop k) := by
  intro l
  induction l with
  | nil => intro s k; simp
  | cons x xs ih =>
    intro s k
    cases k with
    | zero => simp
    | succ k2 =>
      show (List.enumFrom (s + 1) xs).drop k2 = _
      rw [ih (s + 1) k2]
      congr 1
      omega

theorem map_enumFrom (h : Nat × ℚ → ℚ) :
    ∀ (l : List ℚ) (s : Nat),
      (List.enumFrom s l).map h =
        (List.range l.length).map (fun i => h (s + i, l.getD i 0)) := by
  intro l
  induction l with
  | nil => intro s; simp
  | cons x xs ih =>
    intro s
    show h (s, x) :: (List.enumFrom (s + 1) xs).map h = _
    rw [ih (s + 1), List.length_cons, List.range_succ_eq_map, List.map_cons,
      List.map_map]
    congr 1
    refine List.map_congr_left ?_
    intro i _
    simp only [Function.comp, List.getD_cons_succ]
    congr 2
    omega

theorem filter_mod_row (n k : Nat) (hk : k < n) :
    ∀ (row : List ℚ) (s t : Nat), t + row.length ≤ n →
      ((List.enumFrom (s * n + t) row).filter
        (fun p => decide (¬ p.1 % n = k))).map Prod.snd =
        if k < t then row else row.eraseIdx (k - t) := by
  intro row
  induction row with
  | nil =>
    intro s t _
    simp [List.enumFrom]
  | cons x xs ih =>
    intro s t hle
    have ht : t < n := by simp [List.length_cons] at hle; omega
    have hmod : (s * n + t) % n = t := by
      rw [Nat.add_comm, Nat.add_mul_mod_self_right, Nat.mod_eq_of_lt ht]
    show ((⟨s * n + t, x⟩ :: List.enumFrom (s * n + t + 1) xs).filter
        (fun p => decide (¬ p.1 % n = k))).map Prod.snd = _
    have hnext : s * n + t + 1 = s * n + (t + 1) := by omega
    by_cases hkt : t = k
    · subst hkt
      rw [List.filter_cons_of_neg (by simp [hmod])]
      rw [hnext, ih s (t + 1) (by simp at hle ⊢; omega)]
      rw [if_pos (by omega), if_neg (by omega)]
      simp
    · rw [List.filter_cons_of_pos (by simp [hmod]; omega)]
      rw [List.map_cons, hnext, ih s (t + 1) (by simp at hle ⊢; omega)]
      by_cases hlt : k < t
      · rw [if_pos (by omega), if_pos hlt]
      · rw [if_neg (by omega), if_neg hlt]
        have hkt2 : t < k := by omega
        rw [show k - t = (k - (t + 1)) + 1 from by omega,
          List.eraseIdx_cons_succ]

theorem filter_mod_join (n k : Nat) (hn : 0 < n) (hk : k < n) :
    ∀ (r : Nat) (l : List ℚ) (s : Nat), l.length = r * n →
      ((List.enumFrom (s * n) l).filter
        (fun p => decide (¬ p.1 % n = k))).map Prod.snd =
        ((chunksExact n l).map (fun row => row.eraseIdx k)).flatten := by
  intro r
  induction r with
  | zero =>
    intro l s hlen
    have hnil : l = [] := List.eq_nil_of_length_eq_zero (by simpa using hlen)
    subst hnil
    rfl
  | succ r2 ih =>
    intro l s hlen
    have hle : n ≤ l.length := by rw [hlen, Nat.succ_mul]; omega
    have htake : (l.take n).length = n := by rw [List.length_take]; omega
    conv_lhs => rw [← List.take_append_drop n l]
    rw [List.enumFrom_append, List.filter_append, List.map_append, htake]
    have hrow := filter_mod_row n k hk (l.take n) s 0 (by omega)
    rw [if_neg (by omega)] at hrow
    rw [show s * n + 0 = s * n from by omega] at hrow
    rw [hrow]
    rw [show s * n + n = (s + 1) * n from by rw [Nat.succ_mul]]
    rw [ih (l.drop n) (s + 1) (by rw [List.length_drop, hlen, Nat.succ_mul]; omega)]
    rw [chunksExact_cons n l hn hle, List.map_cons, List.flatten_cons]
    simp

theorem sq_sub (n : Nat) : n * n - n = (n - 1) * n := by
  cases n with
  | zero => simp
  | succ m =>
    rw [Nat.succ_mul, Nat.succ_sub_one]
    omega

theorem le_sq (n : Nat) (hn : 0 < n) : n ≤ n * n :=
  Nat.le_mul_of_pos_left n hn

theorem chunks_drop_one (n : Nat) (buf : List ℚ) (hn : 0 < n)
    (hle : n ≤ buf.length) :
    (chunksExact n buf).drop 1 = chunksExact n (buf.drop n) := by
  rw [chunksExact_cons n buf hn hle]
  rfl

/-- The minor buffer built by `skip(n).filter(i % n != k)` is exactly the
row-major concatenation of the rows below row 0 with column `k` deleted. -/
theorem minorbuf_eq (n k : Nat) (buf : List ℚ) (hn : 0 < n) (hk : k < n)
    (hlen : buf.length = n * n) :
    ((buf.enum.drop n).filter (fun p => decide (¬ p.1 % n = k))).map Prod.snd =
      (((chunksExact n buf).drop 1).map (fun row => row.eraseIdx k)).flatten := by
  have hdroplen : (buf.drop n).length = (n - 1) * n := by
    rw [List.length_drop, hlen, sq_sub]
  have h1 : buf.enum.drop n = List.enumFrom (1 * n) (buf.drop n) := by
    show (List.enumFrom 0 buf).drop n = _
    rw [enumFrom_drop buf 0 n]
    congr 1
    omega
  rw [h1, filter_mod_join n k hn hk (n - 1) (buf.drop n) 1 hdroplen,
    chunks_drop_one n buf hn (by rw [hlen]; exact le_sq n hn)]

theorem minor_rows_length (n k : Nat) (buf : List ℚ) (hn : 0 < n) (hk : k < n)
    (hlen : buf.length = n * n) :
    ∀ row2 ∈ ((chunksExact n buf).drop 1).map (fun row => row.eraseIdx k),
      row2.length = n - 1 := by
  intro row2 hrow2
  rw [chunks_drop_one n buf hn (by rw [hlen]; exact le_sq n hn)] at hrow2
  simp only [List.mem_map] at hrow2
  obtain ⟨row, hrow, hr2⟩ := hrow2
  have hrl : row.length = n := chunksExact_mem_length n hn (n - 1) (buf.drop n)
    (by rw [List.length_drop, hlen, sq_sub]) row hrow
  rw [← hr2, List.length_eraseIdx, hrl, if_pos hk]

theorem minorbuf_len (n k : Nat) (buf : List ℚ) (hn : 0 < n) (hk : k < n)
    (hlen : buf.length = n * n) :
    (((buf.enum.drop n).filter
      (fun p => decide (¬ p.1 % n = k))).map Prod.snd).length =
      (n - 1) * (n - 1) := by
  rw [minorbuf_eq n k buf hn hk hlen]
  rw [flatten_length_const (c := n - 1) _ (minor_rows_length n k buf hn hk hlen)]
  rw [List.length_map, chunks_drop_one n buf hn (by rw [hlen]; exact le_sq n hn),
    chunksExact_length n hn (n - 1) (buf.drop n)
      (by rw [List.length_drop, hlen, sq_sub])]

theorem fst_lt_of_mem_enum (l : List ℚ) (p : Nat × ℚ) (h : p ∈ l.enum) :
    p.1 < l.length := by
  obtain ⟨i, x⟩ := p
  have := (List.mem_enumFrom h).2.1
  omega

/-! ## Determinant unfolding lemmas -/

theorem det_unfold_zero (m : Matrix) (hsq : m.is_square = true)
    (h0 : m.dimensions.rows = 0) :
    m.determinant_unoptimized = .ok (some 0) := by
  rw [Matrix.determinant_unoptimized, if_neg (by simp [hsq])]
  split <;> first | rfl | omega

theorem det_unfold_one (m : Matrix) (hsq : m.is_square = true)
    (h1 : m.dimensions.rows = 1) (a : ℚ) (hget : m.get 0 0 = some a) :
    m.determinant_unoptimized = .ok (some a) := by
  rw [Matrix.determinant_unoptimized, if_neg (by simp [hsq])]
  split <;> first | omega | (rw [hget])

theorem det_unfold_two (m : Matrix) (hsq : m.is_square = true)
    (h2 : m.dimensions.rows = 2) (md sd : List ℚ)
    (hmd : m.main_diagonal = .ok (some md))
    (hsd : m.secondary_diagonal = .ok (some sd)) :
    m.determinant_unoptimized = .ok (some
      (md.foldl (fun value item => value * item) 1 -
        sd.foldl (fun value item => value * item) 1)) := by
  rw [Matrix.determinant_unoptimized, if_neg (by simp [hsq])]
  split <;> first | omega | (rw [hmd, hsd])

theorem det_unfold_big (m : Matrix) (s : Nat) (hsq : m.is_square = true)
    (h3 : m.dimensions.rows = s + 3) (r1 : List ℚ)
    (hrow : m.row 0 = .ok (some r1)) (terms : List ℚ)
    (hterms : detTerms s m.buffer r1.enum = .ok terms) :
    m.determinant_unoptimized = .ok (some terms.sum) := by
  rw [Matrix.determinant_unoptimized, if_neg (by simp [hsq])]
  split <;> try omega
  rename_i s2 heq
  have hs : s2 = s := by omega
  subst hs
  rw [hrow]
  simp only [hterms]

theorem row_zero (m : Matrix) (n : Nat) (hn : 0 < n)
    (hrows : m.dimensions.rows = n) (hcols : m.dimensions.columns = n)
    (hlen : m.buffer.length = n * n) :
    m.row 0 = .ok (some (m.buffer.take n)) := by
  unfold Matrix.row Matrix.rows
  rw [if_neg (by omega), if_neg (by omega), hcols]
  rw [chunksExact_cons n m.buffer hn (by rw [hlen]; exact le_sq n hn)]
  rfl

theorem exists_one (l : List ℚ) (h : l.length = 1) : ∃ a, l = [a] := by
  cases l with
  | nil => simp at h
  | cons a t =>
    cases t with
    | nil => exact ⟨a, rfl⟩
    | cons b t2 => simp at h

theorem exists_four (l : List ℚ) (h : l.length = 4) :
    ∃ a b c d, l = [a, b, c, d] := by
  cases l with
  | nil => simp at h
  | cons a t =>
    cases t with
    | nil => simp at h
    | cons b t2 =>
      cases t2 with
      | nil => simp at h
      | cons c t3 =>
        cases t3 with
        | nil => simp at h
        | cons d t4 =>
          cases t4 with
          | nil => exact ⟨a, b, c, d, rfl⟩
          | cons e t5 => simp at h

/-- Each cofactor term produced by `detTerms` matches the spec term: the
entry times the (recursively spec-equal) minor determinant times the
alternating sign. -/
theorem detTerms_eq (s : Nat) (buf : List ℚ)
    (hbuf : buf.length = (s + 3) * (s + 3))
    (IH : ∀ mm : Matrix, mm.invariant → mm.dimensions = .Square (s + 2) →
      mm.determinant_unoptimized = .ok (some (cofactorSpec (s + 2)
        (chunksExact (s + 2) mm.buffer)))) :
    ∀ items : List (Nat × ℚ), (∀ p ∈ items, p.1 < s + 3) →
      detTerms s buf items = .ok (items.map (fun p =>
        p.2 * cofactorSpec (s + 2) (((chunksExact (s + 3) buf).drop 1).map
          (fun row => row.eraseIdx p.1)) *
        (if p.1 % 2 = 0 then 1 else -1))) := by
  intro items
  induction items with
  | nil =>
    intro _
    rw [detTerms]
    rfl
  | cons p rest ih =>
    intro hmem
    obtain ⟨index, value⟩ := p
    have hidx : index < s + 3 := hmem (index, value) (by simp)
    have hn : 0 < s + 3 := by omega
    have hminlen := minorbuf_len (s + 3) index buf hn hidx hbuf
    have hminor := minorbuf_eq (s + 3) index buf hn hidx hbuf
    rw [detTerms]
    rw [if_neg (by rw [hminlen]; simp)]
    have hdet := IH (⟨((buf.enum.drop (s + 3)).filter
        (fun p => decide (¬ p.1 % (s + 3) = index))).map Prod.snd,
        .Square (s + 2)⟩ : Matrix)
      (by unfold Matrix.invariant; simpa using hminlen) rfl
    rw [hdet]
    have hchunks : chunksExact (s + 2) (((buf.enum.drop (s + 3)).filter
        (fun p => decide (¬ p.1 % (s + 3) = index))).map Prod.snd) =
        ((chunksExact (s + 3) buf).drop 1).map
          (fun row => row.eraseIdx index) := by
      rw [hminor]
      exact chunksExact_flatten (s + 2) (by omega) _
        (minor_rows_length (s + 3) index buf hn hidx hbuf)
    rw [hchunks, ih (fun q hq => hmem q (by simp [hq]))]
    simp

/-- The core determinant correctness: for a square matrix satisfying the
invariant the recursive algorithm never panics and computes the
cofactor-expansion reference value. -/
theorem det_eq_spec :
    ∀ (n : Nat) (m : Matrix), m.invariant → m.dimensions = .Square n →
      m.determinant_unoptimized =
        .ok (some (cofactorSpec n (chunksExact n m.buffer))) := by
  intro n
  induction n using Nat.strong_induction_on with
  | _ n IH =>
    intro m hinv hdim
    have hsq : m.is_square = true := by simp [Matrix.is_square, hdim]
    have hrows : m.dimensions.rows = n := by rw [hdim]; rfl
    have hcols : m.dimensions.columns = n := by rw [hdim]; rfl
    have hlen : m.buffer.length = n * n := by
      unfold Matrix.invariant at hinv
      rw [hinv, hdim]
      rfl
    match n, IH, hrows, hcols, hlen with
    | 0, _, hrows, hcols, hlen =>
      have hnil : m.buffer = [] := List.eq_nil_of_length_eq_zero (by omega)
      rw [det_unfold_zero m hsq hrows, hnil]
      rfl
    | 1, _, hrows, hcols, hlen =>
      obtain ⟨a, ha⟩ := exists_one m.buffer (by omega)
      have hget : m.get 0 0 = some a := by
        unfold Matrix.get
        rw [if_neg (by omega), ha, hcols]
        rfl
      rw [det_unfold_one m hsq hrows a hget, ha]
      rfl
    | 2, _, hrows, hcols, hlen =>
      obtain ⟨a, b, c, d, habcd⟩ := exists_four m.buffer (by omega)
      have hget : ∀ i j : Nat, i < 2 → j < 2 →
          m.get i j = m.buffer.get? (i * 2 + j) := by
        intro i j hi hj
        unfold Matrix.get
        rw [if_neg (by omega), hcols]
      have hmd : m.main_diagonal = .ok (some [a, d]) := by
        unfold Matrix.main_diagonal
        rw [if_neg (by simp [hsq]), hrows]
        show (PRes.mapList (fun i => unwrapO (m.get i i)) [0, 1]).map some = _
        rw [show (0 : Nat) = 0 from rfl]
        simp [PRes.mapList, hget 0 0 (by omega) (by omega),
          hget 1 1 (by omega) (by omega), habcd, unwrapO, PRes.map]
      have hsd : m.secondary_diagonal = .ok (some [b, c]) := by
        unfold Matrix.secondary_diagonal
        rw [if_neg (by simp [hsq]), hrows]
        rw [if_neg (by omega)]
        show (PRes.mapList (fun i => unwrapO (m.get i (2 - 1 - i))) [0, 1]).map
          some = _
        simp [PRes.mapList, hget 0 1 (by omega) (by omega),
          hget 1 0 (by omega) (by omega), habcd, unwrapO, PRes.map]
      rw [det_unfold_two m hsq hrows [a, d] [b, c] hmd hsd, habcd]
      show PRes.ok (some ((1 * a) * d - (1 * b) * c)) = _
      rw [show chunksExact 2 [a, b, c, d] = [[a, b], [c, d]] from rfl]
      show _ = PRes.ok (some (a * d - b * c))
      rw [one_mul, one_mul]
    | (s + 3), IH, hrows, hcols, hlen =>
      have hn : 0 < s + 3 := by omega
      have hrow := row_zero m (s + 3) hn hrows hcols hlen
      have hr1len : (m.buffer.take (s + 3)).length = s + 3 := by
        rw [List.length_take]
        have := le_sq (s + 3) hn
        omega
      have hbound : ∀ p ∈ (m.buffer.take (s + 3)).enum, p.1 < s + 3 := by
        intro p hp
        have := fst_lt_of_mem_enum _ p hp
        omega
      have hterms := detTerms_eq s m.buffer hlen
        (fun mm h1 h2 => IH (s + 2) (by omega) mm h1 h2)
        (m.buffer.take (s + 3)).enum hbound
      rw [det_unfold_big m s hsq hrows (m.buffer.take (s + 3)) hrow _ hterms]
      conv_rhs => rw [cofactorSpec]
      have hhead : (chunksExact (s + 3) m.buffer).getD 0 [] =
          m.buffer.take (s + 3) := by
        rw [chunksExact_cons (s + 3) m.buffer hn
          (by rw [hlen]; exact le_sq _ hn)]
        rfl
      have hmap : ((m.buffer.take (s + 3)).enum.map (fun p =>
          p.2 * cofactorSpec (s + 2) (((chunksExact (s + 3) m.buffer).drop 1).map
            (fun row => row.eraseIdx p.1)) *
          (if p.1 % 2 = 0 then 1 else -1))) =
          (List.range (s + 3)).map (fun k =>
            ((chunksExact (s + 3) m.buffer).getD 0 []).getD k 0 *
              cofactorSpec (s + 2)
                (((chunksExact (s + 3) m.buffer).drop 1).map
                  (fun row => row.eraseIdx k)) *
              (if k % 2 = 0 then 1 else -1)) := by
        show (List.enumFrom 0 (m.buffer.take (s + 3))).map _ = _
        rw [map_enumFrom _ (m.buffer.take (s + 3)) 0, hr1len]
        refine List.map_congr_left ?_
        intro k _
        rw [hhead]
        simp
      rw [hmap]

/-! ## Claim C1 — determinant correctness -/

/-- Claim C1 counterexample: the claim promises `Some` of the reference
value for every square matrix of side `n`, but squareness in the code is
judged by the `Dimensions` tag alone.  The matrix
`Matrix::constant(Rectangle { rows: 1, columns: 1 }, 5.0)` is reachable
through the public API (both `constant` and the `Dimensions` variants are
public), has `rows == columns == 1` and satisfies the invariant — a square
matrix of side 1 whose sole entry is 5 — yet `determinant_unoptimized`
returns `None` instead of `Some(5.0)`. -/
theorem claim_C1_cex :
    (Matrix.constant (Dimensions.Rectangle 1 1) 5).dimensions.rows = 1 ∧
    (Matrix.constant (Dimensions.Rectangle 1 1) 5).dimensions.columns = 1 ∧
    (Matrix.constant (Dimensions.Rectangle 1 1) 5).invariant ∧
    (Matrix.constant (Dimensions.Rectangle 1 1) 5).buffer = [5] ∧
    (Matrix.constant (Dimensions.Rectangle 1 1) 5).determinant_unoptimized =
      .ok none := by
  refine ⟨rfl, rfl, by decide, by decide, ?_⟩
  rw [Matrix.determinant_unoptimized, if_pos
    (show (Matrix.constant (Dimensions.Rectangle 1 1) 5).is_square = false
      from rfl)]

/-- Claim C1 (amended): squareness is judged by the `Dimensions` tag alone.
For every matrix whose dimensions are tagged `Square(n)` (the representation
every normalizing constructor produces) and which satisfies the
representation invariant, `determinant_unoptimized` returns `Some` of the
cofactor-expansion reference value (0 for n = 0, the sole entry for n = 1,
`a*d - b*c` for n = 2, signed first-row expansion over the minors
otherwise); for every matrix whose tag is `Rectangle` — even one with
`rows == columns`, mathematically square — it returns `None`. -/
theorem claim_C1 (m : Matrix) :
    (∀ n : Nat, m.invariant → m.dimensions = .Square n →
      m.determinant_unoptimized =
        .ok (some (cofactorSpec n (chunksExact n m.buffer)))) ∧
    (m.is_square = false → m.determinant_unoptimized = .ok none) := by
  constructor
  · intro n hinv hdim
    exact det_eq_spec n m hinv hdim
  · intro hns
    rw [Matrix.determinant_unoptimized, if_pos hns]

theorem claim_C1_witness :
    (({ buffer := [1, 3, 5, 2, 4, 6, 3, 7, 11],
        dimensions := .Square 3 } : Matrix)).invariant ∧
      Matrix.determinant_unoptimized
        (⟨[1, 3, 5, 2, 4, 6, 3, 7, 11], .Square 3⟩ : Matrix) =
        .ok (some (cofactorSpec 3
          (chunksExact 3 [1, 3, 5, 2, 4, 6, 3, 7, 11]))) ∧
      Matrix.determinant_unoptimized
        (⟨[1, 2], .Rectangle 1 2⟩ : Matrix) = .ok none :=
  ⟨by decide,
    (claim_C1 (⟨[1, 3, 5, 2, 4, 6, 3, 7, 11], .Square 3⟩ : Matrix)).1 3
      (by decide) rfl,
    (claim_C1 (⟨[1, 2], .Rectangle 1 2⟩ : Matrix)).2 rfl⟩

/-! ## Claim C10 — determinant never panics -/

/-- Claim C10: for every square matrix satisfying
`buffer.length == dimensions.count()`, `determinant_unoptimized` never
panics: every minor passes the `from_buffer` length check (it has exactly
`(n-1)^2` elements) and every internal `unwrap` succeeds, so the call
returns an ordinary `Some` value. -/
theorem claim_C10 (m : Matrix) (n : Nat) (hinv : m.invariant)
    (hdim : m.dimensions = .Square n) :
    ∃ q : ℚ, m.determinant_unoptimized = .ok (some q) :=
  ⟨cofactorSpec n (chunksExact n m.buffer), det_eq_spec n m hinv hdim⟩

theorem claim_C10_witness :
    (({ buffer := [2, 1, 3, 0, 1, 0, 2, 1, 3, 2, 0, 1, 0, 1, 1, 2],
        dimensions := .Square 4 } : Matrix)).invariant ∧
      ∃ q : ℚ, Matrix.determinant_unoptimized
        (⟨[2, 1, 3, 0, 1, 0, 2, 1, 3, 2, 0, 1, 0, 1, 1, 2],
          .Square 4⟩ : Matrix) = .ok (some q) :=
  ⟨by decide,
    claim_C10 (⟨[2, 1, 3, 0, 1, 0, 2, 1, 3, 2, 0, 1, 0, 1, 1, 2],
      .Square 4⟩ : Matrix) 4 (by decide) rfl⟩

end MatrixLib
